import Mathlib

/-! Shallow embedding of the templ-go/x component cache: the bounded
TTL-LRU store (`lru` in the Go source) together with the component-level
operations built on top of it (`Disable`, `Reset`, `Stats`, `Remove`).

Modeling conventions.  `time.Time` and `time.Duration` values are `Int`
nanoseconds; each store operation receives the value of `time.Now()` as an
explicit `now` argument.  Byte strings (`[]byte`) are `List Nat`.  The Go
source pairs a `container/list` doubly-linked list with a
`map[string]*list.Element` index; every reachable state holds at most one
element per key (`put` deletes the key before inserting), so both are
modeled as the single front-to-back list `list`, map lookup becoming
first-match search by key. -/

/-- This is 24 hours in nanoseconds, the `24 * time.Hour` offset used for the
far-future `earliestExpiration` sentinel. -/
def nsPerDay : Int := 86400000000000

/-- One cached item (`entry` in the source): key, payload and absolute
expiration timestamp. -/
structure entry where
  key : String
  value : List Nat
  expiration : Int
deriving DecidableEq

/-- Size of an entry: `len(e.key) + len(e.value) + 24`, the 24 accounting
for the stored `time.Time` (Go `len` on a string counts bytes). -/
def entry.size (e : entry) : Int :=
  (e.key.utf8ByteSize : Int) + (e.value.length : Int) + 24

/-- Total size of a list of entries. -/
def sumSize (l : List entry) : Int := (l.map entry.size).sum

/-- The store (`lru` in the source).  The `cache` map and the linked
`list` are modeled together as the single field `list`, ordered from
most recently used (front) to least recently used (back). -/
structure lru where
  maxMem : Int
  mem : Int
  list : List entry
  earliestExpiration : Int
  disabled : Bool
  reads : Nat
  hits : Nat
deriving DecidableEq

/-- Constructor `newLRU(maxMem)`; `time.Now()` at construction time is the
argument `now`, so the initial watermark is `now + 24h`. -/
def newLRU (maxMem : Int) (now : Int) : lru :=
  { maxMem := maxMem, mem := 0, list := [],
    earliestExpiration := now + nsPerDay,
    disabled := false, reads := 0, hits := 0 }

/-- The method `lru.reset`: zero the memory counter and replace the list and
the map by fresh empty ones.  Nothing else is touched. -/
def lru.reset (c : lru) : lru :=
  { c with mem := 0, list := [] }

/-- The method `lru._deleteKey`: look the key up in the map; if absent do
nothing, otherwise unlink the element, subtract its size from `mem` and
delete the map slot. -/
def lru._deleteKey (c : lru) (key : String) : lru :=
  match c.list.find? (fun x => x.key == key) with
  | none => c
  | some e =>
      { c with list := c.list.eraseP (fun x => x.key == key), mem := c.mem - e.size }

/-- The method `lru.get`: when disabled return a miss at once (before the
statistics update); otherwise count the read, and on an unexpired entry
count the hit, move the element to the front and return its value; an
expired entry is deleted lazily and reported as a miss. -/
def lru.get (c : lru) (key : String) (now : Int) : Option (List Nat) × lru :=
  if c.disabled then (none, c)
  else
    let c1 := { c with reads := c.reads + 1 }
    match c1.list.find? (fun x => x.key == key) with
    | some e =>
        if now < e.expiration then
          (some e.value,
            { c1 with hits := c1.hits + 1,
                      list := e :: c1.list.eraseP (fun x => x.key == key) })
        else (none, c1._deleteKey e.key)
    | none => (none, c1)

/-- Running minimum used by the sweep in `lru._evictExpired`: fold the
surviving entries, lowering the accumulator whenever an expiration is
earlier (`e.expiration.Before(acc)`). -/
def minExpiration (init : Int) (l : List entry) : Int :=
  l.foldl (fun acc e => if e.expiration < acc then e.expiration else acc) init

/-- The method `lru._evictExpired`: skip when `now.Before(earliestExpiration)`;
otherwise walk the whole list deleting (via `_deleteKey`) every entry with
`now.After(e.expiration)`, i.e. `e.expiration < now`, and recompute the
watermark as the running minimum over the kept entries starting from the
`now + 24h` sentinel.  The walk goes back to front and deletes through the
key index; on key-unique states this is exactly a filter, and the running
minimum does not depend on the traversal order. -/
def lru._evictExpired (c : lru) (now : Int) : lru :=
  if now < c.earliestExpiration then c
  else
    { c with
      list := c.list.filter (fun e => !decide (e.expiration < now)),
      mem := c.mem - sumSize (c.list.filter (fun e => decide (e.expiration < now))),
      earliestExpiration :=
        minExpiration (now + nsPerDay)
          (c.list.filter (fun e => !decide (e.expiration < now))) }

/-- The eviction loop at the end of `lru.put`
(`for c.mem > c.maxMem && c.list.Len() > 1 { delete the back element }`),
viewed from the back of the list: the argument lists the entries back to
front, and each iteration removes the current back entry (deleted through
its key, which on key-unique states is that element) and subtracts its
size, while `mem > maxMem` and at least two entries remain. -/
def putEvictLoop (maxMem : Int) (mem : Int) : List entry → Int × List entry
  | oldest :: b :: rest =>
      if maxMem < mem then putEvictLoop maxMem (mem - oldest.size) (b :: rest)
      else (mem, oldest :: b :: rest)
  | l => (mem, l)

/-- The method `lru.put`: no-op when disabled; otherwise compute
`expiration = now + ttl`, delete any existing entry for the key, push the
new entry at the front, add its size to `mem`, lower the watermark if the
new expiration is earlier, and if `mem > maxMem` run the expiration sweep
followed by the back-eviction loop. -/
def lru.put (c : lru) (key : String) (value : List Nat) (ttl : Int) (now : Int) : lru :=
  if c.disabled then c
  else
    let expiration := now + ttl
    let c1 := c._deleteKey key
    let newEntry : entry := { key := key, value := value, expiration := expiration }
    let c2 := { c1 with list := newEntry :: c1.list, mem := c1.mem + newEntry.size }
    let c3 :=
      if expiration < c2.earliestExpiration then { c2 with earliestExpiration := expiration }
      else c2
    if c3.maxMem < c3.mem then
      let c4 := c3._evictExpired now
      let r := putEvictLoop c4.maxMem c4.mem c4.list.reverse
      { c4 with mem := r.1, list := r.2.reverse }
    else c3

/-- The method `lru.deleteKey` (public `Remove`): `_deleteKey` under the
lock; not gated on `disabled`. -/
def lru.deleteKey (c : lru) (key : String) : lru := c._deleteKey key

/-- `Component.Disable(disable)` from cache.go: when disabling, reset the
store first, then set the flag; when enabling, just set the flag. -/
def lru.disable (c : lru) (d : Bool) : lru :=
  let c1 := if d then c.reset else c
  { c1 with disabled := d }

/-- The `Stats` snapshot structure from cache.go. -/
structure Stats where
  maxMemory : Int
  usedMemory : Int
  items : Nat
  reads : Nat
  hits : Nat
deriving DecidableEq

/-- `Component.Stats()` from cache.go: a point-in-time copy of the gauges
and counters; `Items` is `list.Len()`. -/
def lru.stats (c : lru) : Stats :=
  { maxMemory := c.maxMem, usedMemory := c.mem, items := c.list.length,
    reads := c.reads, hits := c.hits }

/-- One public operation on the store, for stating invariants over
arbitrary operation sequences. -/
inductive CacheOp where
  | get (key : String) (now : Int)
  | put (key : String) (value : List Nat) (ttl : Int) (now : Int)
  | remove (key : String)
  | reset
  | disable (d : Bool)
deriving DecidableEq

/-- Apply one operation to a store. -/
def lru.step (c : lru) : CacheOp → lru
  | .get k now => (c.get k now).2
  | .put k v ttl now => c.put k v ttl now
  | .remove k => c.deleteKey k
  | .reset => c.reset
  | .disable d => c.disable d

/-- Apply a sequence of operations, oldest first. -/
def lru.run (c : lru) (ops : List CacheOp) : lru := ops.foldl lru.step c

/-- Memory-accounting invariant: `mem` is the total size of the resident
entries. -/
def MemInv (c : lru) : Prop := c.mem = sumSize c.list

/-- Watermark invariant: no resident entry expires before
`earliestExpiration`. -/
def ExpInv (c : lru) : Prop := ∀ e ∈ c.list, c.earliestExpiration ≤ e.expiration

instance : DecidablePred MemInv := fun c => by unfold MemInv; infer_instance

instance : DecidablePred ExpInv := fun c => by unfold ExpInv; infer_instance

/-! Concrete keys, payloads and stores used in scenario checks, witnesses
and counterexamples. -/

def kA : String := "A"

def kB : String := "B"

def kC : String := "C"

def kD : String := "D"

def kK : String := "K"

def kX : String := "X"

def vOne : List Nat := [65]

def vBig : List Nat := List.replicate 30 0

/-- A two-day TTL: comfortably beyond the 24h watermark sentinel. -/
def ttlTwoDays : Int := 2 * nsPerDay

/-- Three equal-size entries A, B, C put into a store that holds exactly
three of them (size 26 each, capacity 78), then D: A must be evicted. -/
def lruAfterABCD : lru :=
  ((((newLRU 78 0).put kA vOne ttlTwoDays 0).put kB vOne ttlTwoDays 0).put
    kC vOne ttlTwoDays 0).put kD vOne ttlTwoDays 0

/-- A, B, C put into the same capacity-78 store. -/
def lruAfterABC : lru :=
  (((newLRU 78 0).put kA vOne ttlTwoDays 0).put kB vOne ttlTwoDays 0).put
    kC vOne ttlTwoDays 0

/-- A, B, C inserted, A read (promoting it), then D inserted: B, not A,
must be evicted. -/
def lruAfterABCgetAD : lru :=
  ((lruAfterABC.get kA 0).2).put kD vOne ttlTwoDays 0

/-- One entry of size 55 put into a store whose capacity is only 10. -/
def lruOversized : lru := (newLRU 10 0).put kK vBig ttlTwoDays 0

/-- A fresh store holding one unexpired entry for key A. -/
def lruHitStore : lru := (newLRU 1000 0).put kA vOne ttlTwoDays 0

/-- A disabled store carrying nonzero statistics. -/
def lruDisabledStore : lru :=
  { maxMem := 100, mem := 0, list := [], earliestExpiration := nsPerDay,
    disabled := true, reads := 5, hits := 3 }

/-- Entry expiring exactly at time 100. -/
def entryAt100 : entry := { key := kA, value := vOne, expiration := 100 }

/-- Entry expiring three days after time zero. -/
def entryFar : entry := { key := kB, value := vOne, expiration := 3 * nsPerDay }

/-- Store whose single watermark and entry expire at time 100: a sweep at
`now = 100` runs but keeps the entry. -/
def lruSweep1 : lru :=
  { maxMem := 1000, mem := sumSize [entryAt100, entryFar],
    list := [entryAt100, entryFar], earliestExpiration := 100,
    disabled := false, reads := 0, hits := 0 }

/-- Store holding one far-future entry with a stale (time 0) watermark. -/
def lruSweep2 : lru :=
  { maxMem := 1000, mem := sumSize [entryFar], list := [entryFar],
    earliestExpiration := 0, disabled := false, reads := 0, hits := 0 }

/-- Operations producing two reads and one hit from a fresh store. -/
def opsTwoReadsOneHit : List CacheOp :=
  [CacheOp.put kA vOne ttlTwoDays 0, CacheOp.get kA 0, CacheOp.get kB 0]

/-- The store reached by `opsTwoReadsOneHit`. -/
def lruStatsStore : lru := (newLRU 1000 0).run opsTwoReadsOneHit

/-- A single put, for watermark witnesses. -/
def opsOnePut : List CacheOp := [CacheOp.put kA vOne ttlTwoDays 0]

/-- The entry created by `opsOnePut`. -/
def entryOnePut : entry := { key := kA, value := vOne, expiration := ttlTwoDays }

/-! Basic lemmas about sizes, the running minimum, and deletion. -/

lemma entry.size_pos (e : entry) : 0 < e.size := by
  unfold entry.size
  have h1 : (0 : Int) ≤ (e.key.utf8ByteSize : Int) := Int.ofNat_nonneg _
  have h2 : (0 : Int) ≤ (e.value.length : Int) := Int.ofNat_nonneg _
  omega

@[simp] lemma sumSize_nil : sumSize [] = 0 := rfl

@[simp] lemma sumSize_cons (e : entry) (l : List entry) :
    sumSize (e :: l) = e.size + sumSize l := by
  simp [sumSize]

@[simp] lemma sumSize_reverse (l : List entry) : sumSize l.reverse = sumSize l := by
  simp [sumSize, List.sum_reverse]

lemma sumSize_filter_add (p : entry → Bool) (l : List entry) :
    sumSize (l.filter (fun e => p e)) + sumSize (l.filter (fun e => !p e)) = sumSize l := by
  induction l with
  | nil => simp
  | cons x t ih =>
    cases hp : p x <;> simp [List.filter_cons, hp] <;> omega

lemma sumSize_eraseP_find (p : entry → Bool) (l : List entry) (a : entry)
    (h : l.find? p = some a) : sumSize (l.eraseP p) = sumSize l - a.size := by
  induction l with
  | nil => simp at h
  | cons x t ih =>
    rw [List.find?_cons] at h
    cases hp : p x
    · rw [hp] at h
      simp only [List.eraseP_cons, hp, cond_false, sumSize_cons]
      rw [ih h]
      omega
    · rw [hp] at h
      simp only [Option.some.injEq] at h
      subst h
      simp [List.eraseP_cons, hp]

lemma minExpiration_le_init (init : Int) (l : List entry) :
    minExpiration init l ≤ init := by
  induction l generalizing init with
  | nil => simp [minExpiration]
  | cons x t ih =>
    show minExpiration (if x.expiration < init then x.expiration else init) t ≤ init
    refine le_trans (ih _) ?_
    split <;> omega

lemma minExpiration_attained (init : Int) (l : List entry) :
    minExpiration init l = init ∨ ∃ e ∈ l, minExpiration init l = e.expiration := by
  induction l generalizing init with
  | nil => left; rfl
  | cons x t ih =>
    have hstep : minExpiration init (x :: t) =
        minExpiration (if x.expiration < init then x.expiration else init) t := rfl
    rcases ih (if x.expiration < init then x.expiration else init) with heq | ⟨e, he, heq⟩
    · rw [hstep, heq]
      split
      · exact Or.inr ⟨x, List.mem_cons_self x t, rfl⟩
      · exact Or.inl rfl
    · exact Or.inr ⟨e, List.mem_cons_of_mem x he, by rw [hstep, heq]⟩

lemma minExpiration_le_mem (init : Int) (l : List entry) (e : entry) (h : e ∈ l) :
    minExpiration init l ≤ e.expiration := by
  induction l generalizing init with
  | nil => simp at h
  | cons x t ih =>
    rcases List.mem_cons.mp h with rfl | hm
    · show minExpiration (if e.expiration < init then e.expiration else init) t ≤ e.expiration
      refine le_trans (minExpiration_le_init _ _) ?_
      split <;> omega
    · exact ih _ hm

/-! Lemmas about `lru._deleteKey`. -/

@[simp] lemma _deleteKey_maxMem (c : lru) (key : String) :
    (c._deleteKey key).maxMem = c.maxMem := by
  unfold lru._deleteKey; split <;> rfl

@[simp] lemma _deleteKey_earliest (c : lru) (key : String) :
    (c._deleteKey key).earliestExpiration = c.earliestExpiration := by
  unfold lru._deleteKey; split <;> rfl

@[simp] lemma _deleteKey_disabled (c : lru) (key : String) :
    (c._deleteKey key).disabled = c.disabled := by
  unfold lru._deleteKey; split <;> rfl

@[simp] lemma _deleteKey_reads (c : lru) (key : String) :
    (c._deleteKey key).reads = c.reads := by
  unfold lru._deleteKey; split <;> rfl

@[simp] lemma _deleteKey_hits (c : lru) (key : String) :
    (c._deleteKey key).hits = c.hits := by
  unfold lru._deleteKey; split <;> rfl

lemma _deleteKey_memInv (c : lru) (key : String) (h : MemInv c) :
    MemInv (c._deleteKey key) := by
  unfold MemInv lru._deleteKey at *
  split
  · exact h
  · next e hfind =>
    simp only [h, sumSize_eraseP_find _ _ _ hfind]

lemma _deleteKey_subset (c : lru) (key : String) (e : entry)
    (h : e ∈ (c._deleteKey key).list) : e ∈ c.list := by
  unfold lru._deleteKey at h
  revert h
  split
  · exact id
  · exact fun h => List.mem_of_mem_eraseP h

/-! Lemmas about the back-eviction loop of `lru.put`. -/

@[simp] lemma putEvictLoop_nil (m mem : Int) : putEvictLoop m mem [] = (mem, []) := rfl

@[simp] lemma putEvictLoop_single (m mem : Int) (e : entry) :
    putEvictLoop m mem [e] = (mem, [e]) := rfl

lemma putEvictLoop_cons_cons (m mem : Int) (e b : entry) (rest : List entry) :
    putEvictLoop m mem (e :: b :: rest) =
      if m < mem then putEvictLoop m (mem - e.size) (b :: rest)
      else (mem, e :: b :: rest) := rfl

lemma putEvictLoop_diff (m mem : Int) (l : List entry) :
    (putEvictLoop m mem l).1 - sumSize (putEvictLoop m mem l).2 = mem - sumSize l := by
  induction l generalizing mem with
  | nil => simp
  | cons e t ih =>
    cases t with
    | nil => simp
    | cons b rest =>
      rw [putEvictLoop_cons_cons]
      split
      · have := ih (mem - e.size)
        simp only [sumSize_cons] at *
        omega
      · simp

lemma putEvictLoop_stop (m mem : Int) (l : List entry) :
    (putEvictLoop m mem l).1 ≤ m ∨ (putEvictLoop m mem l).2.length ≤ 1 := by
  induction l generalizing mem with
  | nil => right; simp
  | cons e t ih =>
    cases t with
    | nil => right; simp
    | cons b rest =>
      rw [putEvictLoop_cons_cons]
      split
      · exact ih _
      · left; omega

lemma putEvictLoop_getLast (m mem : Int) (l : List entry) :
    (putEvictLoop m mem l).2.getLast? = l.getLast? := by
  induction l generalizing mem with
  | nil => simp
  | cons e t ih =>
    cases t with
    | nil => simp
    | cons b rest =>
      rw [putEvictLoop_cons_cons]
      split
      · rw [ih _, List.getLast?_cons_cons]
      · rfl

lemma putEvictLoop_drop (m mem : Int) (l : List entry) :
    ∃ n, (putEvictLoop m mem l).2 = l.drop n := by
  induction l generalizing mem with
  | nil => exact ⟨0, rfl⟩
  | cons e t ih =>
    cases t with
    | nil => exact ⟨0, rfl⟩
    | cons b rest =>
      rw [putEvictLoop_cons_cons]
      split
      · obtain ⟨n, hn⟩ := ih (mem - e.size)
        exact ⟨n + 1, by simpa using hn⟩
      · exact ⟨0, rfl⟩

lemma putEvictLoop_subset (m mem : Int) (l : List entry) (e : entry)
    (h : e ∈ (putEvictLoop m mem l).2) : e ∈ l := by
  obtain ⟨n, hn⟩ := putEvictLoop_drop m mem l
  rw [hn] at h
  exact List.mem_of_mem_drop h

/-! Lemmas about the expiration sweep. -/

@[simp] lemma _evictExpired_maxMem (c : lru) (now : Int) :
    (c._evictExpired now).maxMem = c.maxMem := by
  unfold lru._evictExpired; split <;> rfl

@[simp] lemma _evictExpired_disabled (c : lru) (now : Int) :
    (c._evictExpired now).disabled = c.disabled := by
  unfold lru._evictExpired; split <;> rfl

@[simp] lemma _evictExpired_reads (c : lru) (now : Int) :
    (c._evictExpired now).reads = c.reads := by
  unfold lru._evictExpired; split <;> rfl

@[simp] lemma _evictExpired_hits (c : lru) (now : Int) :
    (c._evictExpired now).hits = c.hits := by
  unfold lru._evictExpired; split <;> rfl

lemma _evictExpired_memInv (c : lru) (now : Int) (h : MemInv c) :
    MemInv (c._evictExpired now) := by
  unfold MemInv lru._evictExpired at *
  split
  · exact h
  · have := sumSize_filter_add (fun e => decide (e.expiration < now)) c.list
    simp only at *
    omega

lemma _evictExpired_expInv (c : lru) (now : Int) (h : ExpInv c) :
    ExpInv (c._evictExpired now) := by
  unfold ExpInv lru._evictExpired at *
  split
  · exact h
  · intro e he
    exact minExpiration_le_mem _ _ _ he

lemma _evictExpired_subset (c : lru) (now : Int) (e : entry)
    (h : e ∈ (c._evictExpired now).list) : e ∈ c.list := by
  unfold lru._evictExpired at h
  revert h
  split
  · exact id
  · exact fun h => (List.mem_filter.mp h).1

lemma _evictExpired_head (c : lru) (now : Int) (e : entry)
    (hd : c.list.head? = some e) (he : ¬ e.expiration < now) :
    (c._evictExpired now).list.head? = some e := by
  unfold lru._evictExpired
  split
  · exact hd
  · cases hl : c.list with
    | nil => rw [hl] at hd; simp at hd
    | cons x t =>
      rw [hl] at hd
      simp only [List.head?_cons, Option.some.injEq] at hd
      subst hd
      dsimp only
      rw [List.filter_cons_of_pos (by simpa using he)]
      rfl

/-! Lemmas about `lru.get`. -/

lemma get_disabled (c : lru) (key : String) (now : Int) (h : c.disabled = true) :
    c.get key now = (none, c) := by
  simp [lru.get, h]

@[simp] lemma get_maxMem (c : lru) (key : String) (now : Int) :
    ((c.get key now).2).maxMem = c.maxMem := by
  unfold lru.get
  split
  · rfl
  · dsimp only
    split
    · split <;> simp [lru._deleteKey]
      split <;> rfl
    · rfl

@[simp] lemma get_disabled_flag (c : lru) (key : String) (now : Int) :
    ((c.get key now).2).disabled = c.disabled := by
  unfold lru.get
  split
  · rfl
  · dsimp only
    split
    · split
      · rfl
      · show (lru._deleteKey _ _).disabled = _
        rw [_deleteKey_disabled]
    · rfl

@[simp] lemma get_earliest (c : lru) (key : String) (now : Int) :
    ((c.get key now).2).earliestExpiration = c.earliestExpiration := by
  unfold lru.get
  split
  · rfl
  · dsimp only
    split
    · split
      · rfl
      · show (lru._deleteKey _ _).earliestExpiration = _
        rw [_deleteKey_earliest]
    · rfl

lemma get_reads_enabled (c : lru) (key : String) (now : Int) (h : c.disabled = false) :
    ((c.get key now).2).reads = c.reads + 1 := by
  unfold lru.get
  split
  · next hcond => simp [h] at hcond
  · dsimp only
    split
    · split
      · rfl
      · show (lru._deleteKey _ _).reads = _
        rw [_deleteKey_reads]
    · rfl

/-- Full description of a `get` hit: the found entry is moved to the front
and both counters are bumped. -/
lemma get_spec_hit (c : lru) (k : String) (now : Int) (e : entry)
    (hd : c.disabled = false)
    (hfind : c.list.find? (fun x => x.key == k) = some e)
    (hexp : now < e.expiration) :
    c.get k now =
      (some e.value,
        { c with reads := c.reads + 1, hits := c.hits + 1,
                 list := e :: c.list.eraseP (fun x => x.key == k) }) := by
  unfold lru.get
  rw [if_neg (by simp [hd])]
  dsimp only
  rw [hfind]
  dsimp only
  rw [if_pos hexp]

/-- Full description of a `get` of an absent key: a read is counted and
nothing else changes. -/
lemma get_spec_absent (c : lru) (k : String) (now : Int)
    (hd : c.disabled = false)
    (hfind : c.list.find? (fun x => x.key == k) = none) :
    c.get k now = (none, { c with reads := c.reads + 1 }) := by
  unfold lru.get
  rw [if_neg (by simp [hd])]
  dsimp only
  rw [hfind]

/-- Full description of a `get` of an expired key: a read is counted and
the stale entry is deleted lazily. -/
lemma get_spec_expired (c : lru) (k : String) (now : Int) (e : entry)
    (hd : c.disabled = false)
    (hfind : c.list.find? (fun x => x.key == k) = some e)
    (hexp : ¬ now < e.expiration) :
    c.get k now = (none, ({ c with reads := c.reads + 1 } : lru)._deleteKey e.key) := by
  unfold lru.get
  rw [if_neg (by simp [hd])]
  dsimp only
  rw [hfind]
  dsimp only
  rw [if_neg hexp]

/-- Exhaustive case analysis of `lru.get`. -/
lemma get_cases (c : lru) (k : String) (now : Int) :
    (c.disabled = true ∧ c.get k now = (none, c)) ∨
    (c.disabled = false ∧ ∃ e, c.list.find? (fun x => x.key == k) = some e ∧
      now < e.expiration ∧
      c.get k now = (some e.value,
        { c with reads := c.reads + 1, hits := c.hits + 1,
                 list := e :: c.list.eraseP (fun x => x.key == k) })) ∨
    (c.disabled = false ∧ ∃ e, c.list.find? (fun x => x.key == k) = some e ∧
      ¬ now < e.expiration ∧
      c.get k now = (none, ({ c with reads := c.reads + 1 } : lru)._deleteKey e.key)) ∨
    (c.disabled = false ∧ c.list.find? (fun x => x.key == k) = none ∧
      c.get k now = (none, { c with reads := c.reads + 1 })) := by
  cases hd : c.disabled
  · cases hfind : c.list.find? (fun x => x.key == k) with
    | none =>
      refine Or.inr (Or.inr (Or.inr ⟨rfl, rfl, ?_⟩))
      rw [get_spec_absent c k now hd hfind, hd]
    | some e =>
      by_cases hexp : now < e.expiration
      · refine Or.inr (Or.inl ⟨rfl, e, rfl, hexp, ?_⟩)
        rw [get_spec_hit c k now e hd hfind hexp, hd]
      · refine Or.inr (Or.inr (Or.inl ⟨rfl, e, rfl, hexp, ?_⟩))
        rw [get_spec_expired c k now e hd hfind hexp, hd]
  · exact Or.inl ⟨rfl, get_disabled c k now hd⟩

lemma get_memInv (c : lru) (k : String) (now : Int) (h : MemInv c) :
    MemInv ((c.get k now).2) := by
  rcases get_cases c k now with ⟨_, hg⟩ | ⟨_, e, hfind, _, hg⟩ | ⟨_, e, hfind, _, hg⟩ | ⟨_, _, hg⟩
  · rw [hg]; exact h
  · rw [hg]
    unfold MemInv at *
    simp only [sumSize_cons, sumSize_eraseP_find _ _ _ hfind]
    omega
  · rw [hg]
    exact _deleteKey_memInv _ _ h
  · rw [hg]; exact h

lemma get_expInv (c : lru) (k : String) (now : Int) (h : ExpInv c) :
    ExpInv ((c.get k now).2) := by
  rcases get_cases c k now with ⟨_, hg⟩ | ⟨_, e, hfind, _, hg⟩ | ⟨_, e, hfind, _, hg⟩ | ⟨_, _, hg⟩
  · rw [hg]; exact h
  · rw [hg]
    intro x hx
    rcases List.mem_cons.mp hx with rfl | hx2
    · exact h x (List.mem_of_find?_eq_some hfind)
    · exact h x (List.mem_of_mem_eraseP hx2)
  · rw [hg]
    intro x hx
    have hx2 := _deleteKey_subset _ _ _ hx
    rw [_deleteKey_earliest]
    exact h x hx2
  · rw [hg]; exact h

lemma get_hits_monotone (c : lru) (k : String) (now : Int) :
    c.hits ≤ ((c.get k now).2).hits := by
  rcases get_cases c k now with ⟨_, hg⟩ | ⟨_, e, _, _, hg⟩ | ⟨_, e, _, _, hg⟩ | ⟨_, _, hg⟩ <;>
    rw [hg] <;> simp

lemma get_reads_monotone (c : lru) (k : String) (now : Int) :
    c.reads ≤ ((c.get k now).2).reads := by
  rcases get_cases c k now with ⟨_, hg⟩ | ⟨_, e, _, _, hg⟩ | ⟨_, e, _, _, hg⟩ | ⟨_, _, hg⟩ <;>
    rw [hg] <;> simp

lemma get_hits_le_reads (c : lru) (k : String) (now : Int) (h : c.hits ≤ c.reads) :
    ((c.get k now).2).hits ≤ ((c.get k now).2).reads := by
  rcases get_cases c k now with ⟨_, hg⟩ | ⟨_, e, _, _, hg⟩ | ⟨_, e, _, _, hg⟩ | ⟨_, _, hg⟩ <;>
    rw [hg] <;> simp <;> omega

lemma get_hits_changed (c : lru) (k : String) (now : Int)
    (h : ((c.get k now).2).hits ≠ c.hits) :
    c.disabled = false ∧ ∃ e, c.list.find? (fun x => x.key == k) = some e ∧
      now < e.expiration ∧ ((c.get k now).2).hits = c.hits + 1 := by
  rcases get_cases c k now with ⟨_, hg⟩ | ⟨hd, e, hfind, hexp, hg⟩ | ⟨_, e, _, _, hg⟩ | ⟨_, _, hg⟩
  · rw [hg] at h; simp at h
  · exact ⟨hd, e, hfind, hexp, by rw [hg]⟩
  · rw [hg] at h
    rw [_deleteKey_hits] at h
    simp at h
  · rw [hg] at h; simp at h

/-! Lemmas about the eviction tail of `lru.put` (the conditional sweep and
back-eviction applied to the post-insert state `d`). -/

lemma putTail_memInv (d : lru) (now : Int) (h : MemInv d) :
    MemInv (if d.maxMem < d.mem then
        { d._evictExpired now with
          mem := (putEvictLoop (d._evictExpired now).maxMem (d._evictExpired now).mem
            ((d._evictExpired now).list.reverse)).1,
          list := (putEvictLoop (d._evictExpired now).maxMem (d._evictExpired now).mem
            ((d._evictExpired now).list.reverse)).2.reverse }
      else d) := by
  split
  · have h4 : MemInv (d._evictExpired now) := _evictExpired_memInv d now h
    have hdiff := putEvictLoop_diff (d._evictExpired now).maxMem (d._evictExpired now).mem
      ((d._evictExpired now).list.reverse)
    rw [sumSize_reverse] at hdiff
    unfold MemInv at *
    dsimp only
    rw [sumSize_reverse]
    omega
  · exact h

lemma putTail_expInv (d : lru) (now : Int) (h : ExpInv d) :
    ExpInv (if d.maxMem < d.mem then
        { d._evictExpired now with
          mem := (putEvictLoop (d._evictExpired now).maxMem (d._evictExpired now).mem
            ((d._evictExpired now).list.reverse)).1,
          list := (putEvictLoop (d._evictExpired now).maxMem (d._evictExpired now).mem
            ((d._evictExpired now).list.reverse)).2.reverse }
      else d) := by
  split
  · have h4 : ExpInv (d._evictExpired now) := _evictExpired_expInv d now h
    intro x hx
    dsimp only at hx ⊢
    rw [List.mem_reverse] at hx
    have hx2 := putEvictLoop_subset _ _ _ _ hx
    rw [List.mem_reverse] at hx2
    exact h4 x hx2
  · exact h

lemma putTail_stop (d : lru) (now : Int) (h : MemInv d) (hmax : 0 ≤ d.maxMem) :
    (if d.maxMem < d.mem then
        { d._evictExpired now with
          mem := (putEvictLoop (d._evictExpired now).maxMem (d._evictExpired now).mem
            ((d._evictExpired now).list.reverse)).1,
          list := (putEvictLoop (d._evictExpired now).maxMem (d._evictExpired now).mem
            ((d._evictExpired now).list.reverse)).2.reverse }
      else d).mem ≤
    (if d.maxMem < d.mem then
        { d._evictExpired now with
          mem := (putEvictLoop (d._evictExpired now).maxMem (d._evictExpired now).mem
            ((d._evictExpired now).list.reverse)).1,
          list := (putEvictLoop (d._evictExpired now).maxMem (d._evictExpired now).mem
            ((d._evictExpired now).list.reverse)).2.reverse }
      else d).maxMem ∨
    (if d.maxMem < d.mem then
        { d._evictExpired now with
          mem := (putEvictLoop (d._evictExpired now).maxMem (d._evictExpired now).mem
            ((d._evictExpired now).list.reverse)).1,
          list := (putEvictLoop (d._evictExpired now).maxMem (d._evictExpired now).mem
            ((d._evictExpired now).list.reverse)).2.reverse }
      else d).list.length = 1 := by
  split
  · have h4 : MemInv (d._evictExpired now) := _evictExpired_memInv d now h
    have hdiff := putEvictLoop_diff (d._evictExpired now).maxMem (d._evictExpired now).mem
      ((d._evictExpired now).list.reverse)
    rw [sumSize_reverse] at hdiff
    have hstop := putEvictLoop_stop (d._evictExpired now).maxMem (d._evictExpired now).mem
      ((d._evictExpired now).list.reverse)
    have hmm : (d._evictExpired now).maxMem = d.maxMem := _evictExpired_maxMem d now
    dsimp only
    rcases hstop with hle | hlen
    · left; omega
    · rcases Nat.le_one_iff_eq_zero_or_eq_one.mp hlen with h0 | h1
      · left
        have hnil : (putEvictLoop (d._evictExpired now).maxMem (d._evictExpired now).mem
            ((d._evictExpired now).list.reverse)).2 = [] := List.length_eq_zero.mp h0
        rw [hnil] at hdiff
        simp only [sumSize_nil] at hdiff
        unfold MemInv at h4
        omega
      · right
        rw [List.length_reverse]
        exact h1
  · left; omega

lemma putTail_head (d : lru) (now : Int) (e : entry)
    (hd : d.list.head? = some e) (he : ¬ e.expiration < now) :
    (if d.maxMem < d.mem then
        { d._evictExpired now with
          mem := (putEvictLoop (d._evictExpired now).maxMem (d._evictExpired now).mem
            ((d._evictExpired now).list.reverse)).1,
          list := (putEvictLoop (d._evictExpired now).maxMem (d._evictExpired now).mem
            ((d._evictExpired now).list.reverse)).2.reverse }
      else d).list.head? = some e := by
  split
  · have h4 := _evictExpired_head d now e hd he
    dsimp only
    rw [List.head?_reverse, putEvictLoop_getLast, List.getLast?_reverse]
    exact h4
  · exact hd

lemma putTail_reads (d : lru) (now : Int) :
    (if d.maxMem < d.mem then
        { d._evictExpired now with
          mem := (putEvictLoop (d._evictExpired now).maxMem (d._evictExpired now).mem
            ((d._evictExpired now).list.reverse)).1,
          list := (putEvictLoop (d._evictExpired now).maxMem (d._evictExpired now).mem
            ((d._evictExpired now).list.reverse)).2.reverse }
      else d).reads = d.reads := by
  split
  · exact _evictExpired_reads d now
  · rfl

lemma putTail_hits (d : lru) (now : Int) :
    (if d.maxMem < d.mem then
        { d._evictExpired now with
          mem := (putEvictLoop (d._evictExpired now).maxMem (d._evictExpired now).mem
            ((d._evictExpired now).list.reverse)).1,
          list := (putEvictLoop (d._evictExpired now).maxMem (d._evictExpired now).mem
            ((d._evictExpired now).list.reverse)).2.reverse }
      else d).hits = d.hits := by
  split
  · exact _evictExpired_hits d now
  · rfl

lemma putTail_maxMem (d : lru) (now : Int) :
    (if d.maxMem < d.mem then
        { d._evictExpired now with
          mem := (putEvictLoop (d._evictExpired now).maxMem (d._evictExpired now).mem
            ((d._evictExpired now).list.reverse)).1,
          list := (putEvictLoop (d._evictExpired now).maxMem (d._evictExpired now).mem
            ((d._evictExpired now).list.reverse)).2.reverse }
      else d).maxMem = d.maxMem := by
  split
  · exact _evictExpired_maxMem d now
  · rfl

lemma putTail_disabled (d : lru) (now : Int) :
    (if d.maxMem < d.mem then
        { d._evictExpired now with
          mem := (putEvictLoop (d._evictExpired now).maxMem (d._evictExpired now).mem
            ((d._evictExpired now).list.reverse)).1,
          list := (putEvictLoop (d._evictExpired now).maxMem (d._evictExpired now).mem
            ((d._evictExpired now).list.reverse)).2.reverse }
      else d).disabled = d.disabled := by
  split
  · exact _evictExpired_disabled d now
  · rfl

/-! Lemmas about `lru.put`. -/

lemma put_disabled (c : lru) (k : String) (v : List Nat) (ttl now : Int)
    (h : c.disabled = true) : c.put k v ttl now = c := by
  simp [lru.put, h]

lemma put_memInv (c : lru) (k : String) (v : List Nat) (ttl now : Int) (h : MemInv c) :
    MemInv (c.put k v ttl now) := by
  unfold lru.put
  split
  · exact h
  · dsimp only
    have h1 : MemInv (c._deleteKey k) := _deleteKey_memInv c k h
    unfold MemInv at h1
    split
    · apply putTail_memInv
      unfold MemInv
      dsimp only
      rw [sumSize_cons]
      omega
    · apply putTail_memInv
      unfold MemInv
      dsimp only
      rw [sumSize_cons]
      omega

lemma put_expInv (c : lru) (k : String) (v : List Nat) (ttl now : Int) (h : ExpInv c) :
    ExpInv (c.put k v ttl now) := by
  unfold lru.put
  split
  · exact h
  · dsimp only
    have h1 : ExpInv (c._deleteKey k) := by
      intro x hx
      rw [_deleteKey_earliest]
      exact h x (_deleteKey_subset _ _ _ hx)
    split
    · next hlow =>
      apply putTail_expInv
      intro x hx
      dsimp only at hx ⊢
      rcases List.mem_cons.mp hx with rfl | hx2
      · exact le_refl _
      · have h2 := h1 x hx2
        omega
    · next hnot =>
      apply putTail_expInv
      intro x hx
      dsimp only at hx ⊢
      rcases List.mem_cons.mp hx with rfl | hx2
      · dsimp only
        omega
      · exact h1 x hx2

@[simp] lemma put_reads (c : lru) (k : String) (v : List Nat) (ttl now : Int) :
    (c.put k v ttl now).reads = c.reads := by
  unfold lru.put
  split
  · rfl
  · dsimp only
    split <;> (rw [putTail_reads]; simp)

@[simp] lemma put_hits (c : lru) (k : String) (v : List Nat) (ttl now : Int) :
    (c.put k v ttl now).hits = c.hits := by
  unfold lru.put
  split
  · rfl
  · dsimp only
    split <;> (rw [putTail_hits]; simp)

@[simp] lemma put_maxMem (c : lru) (k : String) (v : List Nat) (ttl now : Int) :
    (c.put k v ttl now).maxMem = c.maxMem := by
  unfold lru.put
  split
  · rfl
  · dsimp only
    split <;> (rw [putTail_maxMem]; simp)

@[simp] lemma put_disabled_flag (c : lru) (k : String) (v : List Nat) (ttl now : Int) :
    (c.put k v ttl now).disabled = c.disabled := by
  unfold lru.put
  split
  · rfl
  · dsimp only
    split <;> (rw [putTail_disabled]; simp)

lemma put_stop (c : lru) (k : String) (v : List Nat) (ttl now : Int)
    (hd : c.disabled = false) (h : MemInv c) (hmax : 0 ≤ c.maxMem) :
    (c.put k v ttl now).mem ≤ (c.put k v ttl now).maxMem ∨
      (c.put k v ttl now).list.length = 1 := by
  unfold lru.put
  split
  · next hcond => simp [hd] at hcond
  · dsimp only
    have h1 : MemInv (c._deleteKey k) := _deleteKey_memInv c k h
    unfold MemInv at h1
    have hmax1 : 0 ≤ (c._deleteKey k).maxMem := by
      rw [_deleteKey_maxMem]; exact hmax
    split
    · apply putTail_stop
      · unfold MemInv
        dsimp only
        rw [sumSize_cons]
        omega
      · dsimp only
        exact hmax1
    · apply putTail_stop
      · unfold MemInv
        dsimp only
        rw [sumSize_cons]
        omega
      · dsimp only
        exact hmax1

lemma put_head (c : lru) (k : String) (v : List Nat) (ttl now : Int)
    (hd : c.disabled = false) (httl : 0 ≤ ttl) :
    (c.put k v ttl now).list.head? =
      some { key := k, value := v, expiration := now + ttl } := by
  unfold lru.put
  split
  · next hcond => simp [hd] at hcond
  · dsimp only
    split
    · apply putTail_head
      · rfl
      · dsimp only
        omega
    · apply putTail_head
      · rfl
      · dsimp only
        omega

/-! Lemmas about `reset`, `disable`, `deleteKey` and the operation step. -/

lemma reset_memInv (c : lru) : MemInv c.reset := rfl

lemma reset_expInv (c : lru) : ExpInv c.reset := by
  intro e he
  simp [lru.reset] at he

@[simp] lemma disable_reads (c : lru) (d : Bool) : (c.disable d).reads = c.reads := by
  unfold lru.disable lru.reset
  cases d <;> rfl

@[simp] lemma disable_hits (c : lru) (d : Bool) : (c.disable d).hits = c.hits := by
  unfold lru.disable lru.reset
  cases d <;> rfl

lemma disable_memInv (c : lru) (d : Bool) (h : MemInv c) : MemInv (c.disable d) := by
  unfold MemInv lru.disable lru.reset at *
  cases d
  · exact h
  · rfl

lemma disable_expInv (c : lru) (d : Bool) (h : ExpInv c) : ExpInv (c.disable d) := by
  unfold ExpInv lru.disable lru.reset at *
  cases d
  · exact h
  · intro e he
    simp at he

lemma step_memInv (c : lru) (op : CacheOp) (h : MemInv c) : MemInv (c.step op) := by
  cases op with
  | get k now => exact get_memInv c k now h
  | put k v ttl now => exact put_memInv c k v ttl now h
  | remove k => exact _deleteKey_memInv c k h
  | reset => exact reset_memInv c
  | disable d => exact disable_memInv c d h

lemma step_expInv (c : lru) (op : CacheOp) (h : ExpInv c) : ExpInv (c.step op) := by
  cases op with
  | get k now => exact get_expInv c k now h
  | put k v ttl now => exact put_expInv c k v ttl now h
  | remove k =>
    intro e he
    show (c._deleteKey k).earliestExpiration ≤ e.expiration
    rw [_deleteKey_earliest]
    exact h e (_deleteKey_subset _ _ _ he)
  | reset => exact reset_expInv c
  | disable d => exact disable_expInv c d h

lemma step_hits_le_reads (c : lru) (op : CacheOp) (h : c.hits ≤ c.reads) :
    (c.step op).hits ≤ (c.step op).reads := by
  cases op with
  | get k now => exact get_hits_le_reads c k now h
  | put k v ttl now =>
    show (c.put k v ttl now).hits ≤ (c.put k v ttl now).reads
    simp [h]
  | remove k =>
    show (c._deleteKey k).hits ≤ (c._deleteKey k).reads
    simp [h]
  | reset => exact h
  | disable d =>
    show (c.disable d).hits ≤ (c.disable d).reads
    simp [h]

lemma step_reads_monotone (c : lru) (op : CacheOp) : c.reads ≤ (c.step op).reads := by
  cases op with
  | get k now => exact get_reads_monotone c k now
  | put k v ttl now => show c.reads ≤ (c.put k v ttl now).reads; simp
  | remove k => show c.reads ≤ (c._deleteKey k).reads; simp
  | reset => exact le_refl _
  | disable d => show c.reads ≤ (c.disable d).reads; simp

lemma step_hits_monotone (c : lru) (op : CacheOp) : c.hits ≤ (c.step op).hits := by
  cases op with
  | get k now => exact get_hits_monotone c k now
  | put k v ttl now => show c.hits ≤ (c.put k v ttl now).hits; simp
  | remove k => show c.hits ≤ (c._deleteKey k).hits; simp
  | reset => exact le_refl _
  | disable d => show c.hits ≤ (c.disable d).hits; simp

lemma step_reads_changed (c : lru) (op : CacheOp) (h : (c.step op).reads ≠ c.reads) :
    ∃ k now, op = CacheOp.get k now ∧ c.disabled = false ∧
      (c.step op).reads = c.reads + 1 := by
  cases op with
  | get k now =>
    cases hd : c.disabled
    · exact ⟨k, now, rfl, rfl, get_reads_enabled c k now hd⟩
    · exfalso
      apply h
      show ((c.get k now).2).reads = c.reads
      rw [get_disabled c k now hd]
  | put k v ttl now => exact absurd (put_reads c k v ttl now) h
  | remove k => exact absurd (_deleteKey_reads c k) h
  | reset => exact absurd rfl h
  | disable d => exact absurd (disable_reads c d) h

lemma step_hits_changed (c : lru) (op : CacheOp) (h : (c.step op).hits ≠ c.hits) :
    ∃ k now e, op = CacheOp.get k now ∧ c.disabled = false ∧
      c.list.find? (fun x => x.key == k) = some e ∧ now < e.expiration ∧
      (c.step op).hits = c.hits + 1 := by
  cases op with
  | get k now =>
    obtain ⟨hd, e, hfind, hexp, hinc⟩ := get_hits_changed c k now h
    exact ⟨k, now, e, rfl, hd, hfind, hexp, hinc⟩
  | put k v ttl now => exact absurd (put_hits c k v ttl now) h
  | remove k => exact absurd (_deleteKey_hits c k) h
  | reset => exact absurd rfl h
  | disable d => exact absurd (disable_hits c d) h

lemma run_memInv (ops : List CacheOp) (c : lru) (h : MemInv c) : MemInv (c.run ops) := by
  induction ops generalizing c with
  | nil => exact h
  | cons op rest ih =>
    show MemInv ((c.step op).run rest)
    exact ih _ (step_memInv c op h)

lemma run_expInv (ops : List CacheOp) (c : lru) (h : ExpInv c) : ExpInv (c.run ops) := by
  induction ops generalizing c with
  | nil => exact h
  | cons op rest ih =>
    show ExpInv ((c.step op).run rest)
    exact ih _ (step_expInv c op h)

lemma run_hits_le_reads (ops : List CacheOp) (c : lru) (h : c.hits ≤ c.reads) :
    (c.run ops).hits ≤ (c.run ops).reads := by
  induction ops generalizing c with
  | nil => exact h
  | cons op rest ih =>
    show ((c.step op).run rest).hits ≤ _
    exact ih _ (step_hits_le_reads c op h)

/-- Computation of a `put` into a fresh store: the new entry is the sole
resident and `mem` is exactly its size (its key and value lengths plus the
24-byte overhead), whatever the capacity. -/
lemma put_fresh (m now0 : Int) (k : String) (v : List Nat) (ttl now : Int) (httl : 0 ≤ ttl) :
    ((newLRU m now0).put k v ttl now).mem =
      entry.size { key := k, value := v, expiration := now + ttl } ∧
    ((newLRU m now0).put k v ttl now).list =
      [{ key := k, value := v, expiration := now + ttl }] := by
  have hx : ¬ ((now : Int) + ttl < now) := by omega
  have hdel : (newLRU m now0)._deleteKey k = newLRU m now0 := rfl
  unfold lru.put
  rw [if_neg (by simp [newLRU])]
  dsimp only
  rw [hdel]
  simp only [show (newLRU m now0).list = [] from rfl, show (newLRU m now0).mem = 0 from rfl]
  split
  · split
    · unfold lru._evictExpired
      split
      · constructor <;> simp
      · constructor <;> simp [hx, sumSize]
    · constructor <;> simp
  · split
    · unfold lru._evictExpired
      split
      · constructor <;> simp
      · constructor <;> simp [hx, sumSize]
    · constructor <;> simp

/-- Removing the sole resident entry takes `mem` back down by its size. -/
lemma deleteKey_singleton (c : lru) (e : entry) (k : String)
    (hl : c.list = [e]) (hk : e.key = k) :
    (c.deleteKey k).mem = c.mem - e.size := by
  unfold lru.deleteKey lru._deleteKey
  rw [hl]
  have hfind : List.find? (fun x => x.key == k) [e] = some e := by
    simp [List.find?_cons, hk]
  rw [hfind]

/-! Claim theorems. -/

/-- C1: the store keeps `list` in strict recency order: a `get` hit moves
the accessed entry to the front, an enabled `put` (with nonnegative TTL)
leaves the new entry at the front, the capacity loop removes entries only
from the back of the order (the result is a tail of the back-to-front
view, i.e. it never skips over a fresher entry), and with capacity for
exactly three equal-size entries, inserting A, B, C, D evicts A, while
inserting A, B, C, reading A and then inserting D evicts B, not A. -/
theorem claim1_recency_order_and_lru_eviction :
    (∀ (c : lru) (k : String) (now : Int) (v : List Nat),
        (c.get k now).1 = some v →
        ∃ e, c.list.find? (fun x => x.key == k) = some e ∧ e.value = v ∧
          ((c.get k now).2).list = e :: c.list.eraseP (fun x => x.key == k)) ∧
    (∀ (c : lru) (k : String) (v : List Nat) (ttl now : Int),
        c.disabled = false → 0 ≤ ttl →
        (c.put k v ttl now).list.head? =
          some { key := k, value := v, expiration := now + ttl }) ∧
    (∀ (m mem : Int) (l : List entry), ∃ n, (putEvictLoop m mem l).2 = l.drop n) ∧
    (lruAfterABCD.list.map entry.key = [kD, kC, kB] ∧
      lruAfterABCgetAD.list.map entry.key = [kD, kA, kC]) := by
  refine ⟨?_, ?_, ?_, by decide, by decide⟩
  · intro c k now v hv
    rcases get_cases c k now with ⟨hd, hg⟩ | ⟨hd, e, hfind, hexp, hg⟩ |
      ⟨hd, e, hfind, hexp, hg⟩ | ⟨hd, hfind, hg⟩
    · rw [hg] at hv; simp at hv
    · refine ⟨e, hfind, ?_, ?_⟩
      · rw [hg] at hv
        simpa using hv
      · rw [hg]
    · rw [hg] at hv; simp at hv
    · rw [hg] at hv; simp at hv
  · exact put_head
  · exact putEvictLoop_drop

/-- C1 witness: a concrete hit promotion and a concrete front insertion. -/
theorem claim1_witness :
    (∃ e, lruHitStore.list.find? (fun x => x.key == kA) = some e ∧ e.value = vOne ∧
      ((lruHitStore.get kA 0).2).list = e :: lruHitStore.list.eraseP (fun x => x.key == kA)) ∧
    ((newLRU 1000 0).put kA vOne ttlTwoDays 0).list.head? =
      some { key := kA, value := vOne, expiration := 0 + ttlTwoDays } :=
  ⟨claim1_recency_order_and_lru_eviction.1 lruHitStore kA 0 vOne (by decide),
   claim1_recency_order_and_lru_eviction.2.1 (newLRU 1000 0) kA vOne ttlTwoDays 0 rfl
     (by decide)⟩

/-- C2: after an enabled `put` on a well-accounted store with nonnegative
capacity, either `mem ≤ maxMem` or exactly one entry remains; and
concretely, a single entry larger than the whole capacity is inserted and
stays as the sole resident entry, with `mem` above `maxMem`. -/
theorem claim2_put_capacity_or_single_entry :
    (∀ (c : lru) (k : String) (v : List Nat) (ttl now : Int),
        c.disabled = false → MemInv c → 0 ≤ c.maxMem →
        (c.put k v ttl now).mem ≤ c.maxMem ∨ (c.put k v ttl now).list.length = 1) ∧
    (lruOversized.list.map entry.key = [kK] ∧ lruOversized.list.length = 1 ∧
      lruOversized.maxMem < lruOversized.mem) := by
  refine ⟨?_, by decide, by decide, by decide⟩
  intro c k v ttl now hd h hmax
  rcases put_stop c k v ttl now hd h hmax with h1 | h1
  · left
    rw [put_maxMem] at h1
    exact h1
  · right
    exact h1

/-- C2 witness: the oversized put itself satisfies the disjunction (via its
single remaining entry). -/
theorem claim2_witness :
    ((newLRU 10 0).put kK vBig ttlTwoDays 0).mem ≤ (newLRU 10 0).maxMem ∨
      ((newLRU 10 0).put kK vBig ttlTwoDays 0).list.length = 1 :=
  claim2_put_capacity_or_single_entry.1 (newLRU 10 0) kK vBig ttlTwoDays 0 rfl
    (by decide) (by decide)

/-- C3 counterexample: the sweep keeps an entry whose expiration equals
`now` (removal requires `expiration < now`, not `<= now`), and with a
far-future survivor the recomputed watermark is the `now + 24h` sentinel,
not the minimum expiration among the survivors. -/
theorem claim3_counterexample :
    (¬ ∀ e ∈ (lruSweep1._evictExpired 100).list, ¬ e.expiration ≤ 100) ∧
    ((lruSweep2._evictExpired 0).list = [entryFar] ∧
      (lruSweep2._evictExpired 0).earliestExpiration ≠ entryFar.expiration) := by
  refine ⟨by decide, by decide, by decide⟩

/-- C3 amended: the sweep is a no-op when `now < earliestExpiration`;
otherwise it removes exactly the entries expiring strictly before `now`
(an entry expiring at `now` survives), and recomputes the watermark as
exactly the minimum of the `now + 24h` sentinel and the survivors'
expirations: it is at most the sentinel, at most every survivor's
expiration, and is attained by the sentinel or by some survivor. -/
theorem claim3_sweep_amended :
    ∀ (c : lru) (now : Int),
      (now < c.earliestExpiration → c._evictExpired now = c) ∧
      (c.earliestExpiration ≤ now →
        (∀ e ∈ c.list, e.expiration < now → e ∉ (c._evictExpired now).list) ∧
        (∀ e ∈ c.list, now ≤ e.expiration → e ∈ (c._evictExpired now).list) ∧
        (∀ e ∈ (c._evictExpired now).list, e ∈ c.list ∧ now ≤ e.expiration) ∧
        (c._evictExpired now).earliestExpiration ≤ now + nsPerDay ∧
        (∀ e ∈ (c._evictExpired now).list,
          (c._evictExpired now).earliestExpiration ≤ e.expiration) ∧
        ((c._evictExpired now).earliestExpiration = now + nsPerDay ∨
          ∃ e ∈ (c._evictExpired now).list,
            (c._evictExpired now).earliestExpiration = e.expiration)) := by
  intro c now
  constructor
  · intro h
    unfold lru._evictExpired
    rw [if_pos h]
  · intro h
    unfold lru._evictExpired
    rw [if_neg (by omega)]
    dsimp only
    refine ⟨?_, ?_, ?_, ?_, ?_, ?_⟩
    · intro e he hexp hmem
      have := (List.mem_filter.mp hmem).2
      simp at this
      omega
    · intro e he hexp
      refine List.mem_filter.mpr ⟨he, ?_⟩
      simp
      omega
    · intro e hmem
      have h1 := (List.mem_filter.mp hmem).1
      have h2 := (List.mem_filter.mp hmem).2
      simp at h2
      exact ⟨h1, by omega⟩
    · exact minExpiration_le_init _ _
    · intro e hmem
      exact minExpiration_le_mem _ _ _ hmem
    · exact minExpiration_attained _ _

/-- C3 witness: a concrete no-op sweep, the recomputed watermark bounding
a concrete survivor, and its value attained at a concrete entry. -/
theorem claim3_witness :
    lruSweep2._evictExpired (-1) = lruSweep2 ∧
    (lruSweep1._evictExpired 100).earliestExpiration ≤ entryFar.expiration ∧
    ((lruSweep1._evictExpired 100).earliestExpiration = 100 + nsPerDay ∨
      ∃ e ∈ (lruSweep1._evictExpired 100).list,
        (lruSweep1._evictExpired 100).earliestExpiration = e.expiration) :=
  ⟨(claim3_sweep_amended lruSweep2 (-1)).1 (by decide),
   ((claim3_sweep_amended lruSweep1 100).2 (by decide)).2.2.2.2.1 entryFar (by decide),
   ((claim3_sweep_amended lruSweep1 100).2 (by decide)).2.2.2.2.2⟩

/-- C4: starting from a fresh store, after any sequence of operations
`mem` equals the sum of the resident entries' sizes; and inserting a
single entry of key byte-length `k` and value length `v` into a fresh
store yields `mem = k + v + 24`, returning to 0 after its removal. -/
theorem claim4_memory_accounting :
    (∀ (m now0 : Int) (ops : List CacheOp), MemInv ((newLRU m now0).run ops)) ∧
    (∀ (m now0 : Int) (k : String) (v : List Nat) (ttl now : Int), 0 ≤ ttl →
      ((newLRU m now0).put k v ttl now).mem =
        (k.utf8ByteSize : Int) + (v.length : Int) + 24 ∧
      (((newLRU m now0).put k v ttl now).deleteKey k).mem = 0) := by
  constructor
  · intro m now0 ops
    exact run_memInv ops _ rfl
  · intro m now0 k v ttl now httl
    obtain ⟨hmem, hlist⟩ := put_fresh m now0 k v ttl now httl
    constructor
    · rw [hmem]
      rfl
    · have hdel := deleteKey_singleton ((newLRU m now0).put k v ttl now)
        { key := k, value := v, expiration := now + ttl } k hlist rfl
      rw [hdel, hmem]
      omega

/-- C4 witness: the accounting invariant and single-entry numbers at a
concrete store. -/
theorem claim4_witness :
    MemInv ((newLRU 1000 0).run opsTwoReadsOneHit) ∧
    ((newLRU 1000 0).put kA vOne ttlTwoDays 0).mem =
      ((kA.utf8ByteSize : Int) + ((vOne.length : Nat) : Int) + 24) ∧
    (((newLRU 1000 0).put kA vOne ttlTwoDays 0).deleteKey kA).mem = 0 :=
  ⟨claim4_memory_accounting.1 1000 0 opsTwoReadsOneHit,
   claim4_memory_accounting.2 1000 0 kA vOne ttlTwoDays 0 (by decide)⟩

/-- C5: starting from a fresh store, after any sequence of operations the
watermark `earliestExpiration` is at most every resident entry's
expiration (vacuously so when the store is empty). -/
theorem claim5_watermark_conservative :
    ∀ (m now0 : Int) (ops : List CacheOp), ExpInv ((newLRU m now0).run ops) := by
  intro m now0 ops
  apply run_expInv
  intro e he
  simp [newLRU] at he

/-- C5 witness: the watermark bounds the concrete entry created by one put. -/
theorem claim5_witness :
    ((newLRU 1000 0).run opsOnePut).earliestExpiration ≤ entryOnePut.expiration :=
  claim5_watermark_conservative 1000 0 opsOnePut entryOnePut (by decide)

/-- C6: disabling resets the store first and then sets the flag; enabling
just sets the flag; while disabled, every get misses without touching the
state and every put is a no-op. -/
theorem claim6_disable_semantics :
    (∀ c : lru, c.disable true = { c.reset with disabled := true }) ∧
    (∀ c : lru, c.disable false = { c with disabled := false }) ∧
    (∀ (c : lru) (k : String) (now : Int), c.disabled = true →
      c.get k now = (none, c)) ∧
    (∀ (c : lru) (k : String) (v : List Nat) (ttl now : Int), c.disabled = true →
      c.put k v ttl now = c) :=
  ⟨fun _ => rfl, fun _ => rfl, get_disabled, put_disabled⟩

/-- C6 witness: a disabled store ignores a concrete get and a concrete put. -/
theorem claim6_witness :
    lruDisabledStore.get kX 0 = (none, lruDisabledStore) ∧
    lruDisabledStore.put kX vOne ttlTwoDays 0 = lruDisabledStore :=
  ⟨claim6_disable_semantics.2.2.1 lruDisabledStore kX 0 rfl,
   claim6_disable_semantics.2.2.2 lruDisabledStore kX vOne ttlTwoDays 0 rfl⟩

/-- C7 counterexample: a get on a disabled store returns before the
statistics update, so `reads` is not incremented. -/
theorem claim7_counterexample :
    ((lruDisabledStore.get kX 0).2).reads ≠ lruDisabledStore.reads + 1 := by
  decide

/-- C7 amended: a get increments `reads` exactly when the store is
enabled; a disabled get leaves the whole store (hence `reads`) unchanged. -/
theorem claim7_reads_increment :
    ∀ (c : lru) (k : String) (now : Int),
      (c.disabled = false → ((c.get k now).2).reads = c.reads + 1) ∧
      (c.disabled = true → (c.get k now).2 = c) :=
  fun c k now =>
    ⟨get_reads_enabled c k now,
     fun h => by rw [get_disabled c k now h]⟩

/-- C7 witness: an enabled get counts, a disabled one does not. -/
theorem claim7_witness :
    (((newLRU 10 0).get kX 0).2).reads = (newLRU 10 0).reads + 1 ∧
    (lruDisabledStore.get kX 0).2 = lruDisabledStore :=
  ⟨(claim7_reads_increment (newLRU 10 0) kX 0).1 rfl,
   (claim7_reads_increment lruDisabledStore kX 0).2 rfl⟩

/-- C8: concrete evaluation showing the divergence: after two reads and
one hit, `Reset` empties the contents (`usedMemory = 0`, `items = 0`) but
leaves `reads = 2` and `hits = 1` in the next stats snapshot, although the
claim (and the code's own doc comments on `Stats` and `Reset`) promise
that the statistics are reset together with the contents. -/
theorem claim8_reset_keeps_stats :
    lruStatsStore.reads = 2 ∧ lruStatsStore.hits = 1 ∧
    (lruStatsStore.reset).stats.usedMemory = 0 ∧
    (lruStatsStore.reset).stats.items = 0 ∧
    (lruStatsStore.reset).stats.reads = 2 ∧
    (lruStatsStore.reset).stats.hits = 1 := by
  refine ⟨by decide, by decide, by decide, by decide, by decide, by decide⟩

/-- C9: from a fresh store, `hits ≤ reads` after any operation sequence;
each single operation leaves both counters no smaller; `reads` changes
only on a get against an enabled store (then by exactly one), and `hits`
changes only on such a get that finds an unexpired entry. -/
theorem claim9_counter_invariants :
    (∀ (m now0 : Int) (ops : List CacheOp),
      ((newLRU m now0).run ops).hits ≤ ((newLRU m now0).run ops).reads) ∧
    (∀ (c : lru) (op : CacheOp),
      c.reads ≤ (c.step op).reads ∧ c.hits ≤ (c.step op).hits) ∧
    (∀ (c : lru) (op : CacheOp), (c.step op).reads ≠ c.reads →
      ∃ k now, op = CacheOp.get k now ∧ c.disabled = false ∧
        (c.step op).reads = c.reads + 1) ∧
    (∀ (c : lru) (op : CacheOp), (c.step op).hits ≠ c.hits →
      ∃ k now e, op = CacheOp.get k now ∧ c.disabled = false ∧
        c.list.find? (fun x => x.key == k) = some e ∧ now < e.expiration ∧
        (c.step op).hits = c.hits + 1) := by
  refine ⟨?_, ?_, step_reads_changed, step_hits_changed⟩
  · intro m now0 ops
    exact run_hits_le_reads ops _ (le_refl 0)
  · intro c op
    exact ⟨step_reads_monotone c op, step_hits_monotone c op⟩

/-- C9 witness: the reads and hits characterizations applied to concrete
gets on an enabled store with one unexpired entry. -/
theorem claim9_witness :
    (∃ k now, CacheOp.get kX (0 : Int) = CacheOp.get k now ∧
      lruHitStore.disabled = false ∧
      (lruHitStore.step (CacheOp.get kX 0)).reads = lruHitStore.reads + 1) ∧
    (∃ k now e, CacheOp.get kA (0 : Int) = CacheOp.get k now ∧
      lruHitStore.disabled = false ∧
      lruHitStore.list.find? (fun x => x.key == k) = some e ∧ now < e.expiration ∧
      (lruHitStore.step (CacheOp.get kA 0)).hits = lruHitStore.hits + 1) :=
  ⟨claim9_counter_invariants.2.2.1 lruHitStore (CacheOp.get kX 0) (by decide),
   claim9_counter_invariants.2.2.2 lruHitStore (CacheOp.get kA 0) (by decide)⟩

/-- C10: `reset` empties the contents and memory counter and changes
nothing else (flag, capacity, watermark, counters); in particular a
disabled store stays disabled: gets still miss and puts are still
no-ops after the reset. -/
theorem claim10_reset_frame :
    (∀ c : lru, (c.reset).disabled = c.disabled ∧ (c.reset).maxMem = c.maxMem ∧
      (c.reset).earliestExpiration = c.earliestExpiration ∧
      (c.reset).reads = c.reads ∧ (c.reset).hits = c.hits ∧
      (c.reset).mem = 0 ∧ (c.reset).list = []) ∧
    (∀ (c : lru) (k : String) (now : Int), c.disabled = true →
      (c.reset).get k now = (none, c.reset)) ∧
    (∀ (c : lru) (k : String) (v : List Nat) (ttl now : Int), c.disabled = true →
      (c.reset).put k v ttl now = c.reset) := by
  refine ⟨fun c => ⟨rfl, rfl, rfl, rfl, rfl, rfl, rfl⟩, ?_, ?_⟩
  · intro c k now h
    exact get_disabled c.reset k now h
  · intro c k v ttl now h
    exact put_disabled c.reset k v ttl now h

/-- C10 witness: resetting a concrete disabled store keeps it disabled and
inert. -/
theorem claim10_witness :
    (lruDisabledStore.reset).get kX 0 = (none, lruDisabledStore.reset) ∧
    (lruDisabledStore.reset).put kX vOne ttlTwoDays 0 = lruDisabledStore.reset :=
  ⟨claim10_reset_frame.2.1 lruDisabledStore kX 0 rfl,
   claim10_reset_frame.2.2 lruDisabledStore kX vOne ttlTwoDays 0 rfl⟩
